import Mathlib

/-!
Verification of the Rode pre-execution source pipeline and module system.

The repository ships only documentation (README, `rode.d.ts`, demo scripts);
the runtime implementation itself is not among the provided source files.
Every definition below is therefore modelled from the specification's own
words (its data model in §3, the component contracts in §4, the `.env`
grammar in §6 and the API documentation in `rode.d.ts`), and each claim is
settled against that model.
-/

set_option maxRecDepth 10000

namespace Rode

/-! ## Association-list primitives shared by the ModuleGraph and the EnvStore -/

/-- Find the value bound to a key in an association list (first binding wins). -/
def assocFind {α : Type} (l : List (String × α)) (k : String) : Option α :=
  match l with
  | [] => none
  | (k', v) :: rest => if k' = k then some v else assocFind rest k

/-- Replace the first binding of a key, or append a fresh binding. -/
def insertKV {α : Type} (l : List (String × α)) (k : String) (v : α) : List (String × α) :=
  match l with
  | [] => [(k, v)]
  | (k', v') :: rest => if k' = k then (k, v) :: rest else (k', v') :: insertKV rest k v

/-- Apply a function to the record stored under a key, leaving other bindings alone. -/
def modifyKV {α : Type} (l : List (String × α)) (k : String) (f : α → α) : List (String × α) :=
  match l with
  | [] => []
  | (k', v) :: rest => if k' = k then (k', f v) :: rest else (k', v) :: modifyKV rest k f

/-! ## Data model of the Module Resolver & Loader (spec §3, §4.4)

Modelled from the spec: the loader implementation is not among the provided
source files, so the ModuleRecord / ModuleGraph data model and the `require`
algorithm of §4.4 are embedded from the specification text. -/

/-- Values a module body can export.  `obj` also serves as the snapshot a
cyclic importer takes of a partially populated exports object. -/
inductive Value where
  | str : String → Value
  | num : Int → Value
  | obj : List (String × Value) → Value

/-- Modelled from the spec: the observable top-level actions of an evaluated
module body — defining an export, requiring another module (by resolved
absolute path), requiring a module and snapshotting its current exports
object into an export, or throwing an engine error. -/
inductive Stmt where
  | defineExport : String → Value → Stmt
  | reqStmt : String → Stmt
  | reqSnapshot : String → String → Stmt
  | throwErr : String → Stmt

/-- Error taxonomy relevant to the loader (spec §7). -/
inductive LoadError where
  | moduleNotFound : String → LoadError
  | evalError : String → LoadError
  deriving DecidableEq

/-- Load state of a module record (spec §3).  `Unloaded` records are never
stored: a record is created directly in `Loading` state. -/
inductive ModState where
  | Loading | Loaded | Failed
  deriving DecidableEq

/-- Modelled from the spec: `ModuleRecord` of §3 — state, mutable exports
object and the error recorded on failure. -/
structure ModuleRecord where
  state : ModState
  exports : List (String × Value)
  err : Option LoadError

/-- Modelled from the spec: the loader-owned process-wide state — the
ModuleGraph keyed by absolute path, plus a log of the paths whose bodies
were actually handed to the engine (used to state the at-most-one-evaluation
invariant). -/
structure LoaderState where
  graph : List (String × ModuleRecord)
  evalLog : List String

/-- A filesystem of module bodies keyed by absolute path. -/
def FS : Type := List (String × List Stmt)

/-- The answer `require` gives when a record already exists (spec §4.4
steps 4–5 and §7): `Loaded` and `Loading` both return the exports object
reference (the path) at once; `Failed` re-raises the recorded error. -/
def cachedResult (p : String) (r : ModuleRecord) (st : LoaderState) :
    Option (Except LoadError String × LoaderState) :=
  match r.state with
  | .Loaded => some (.ok p, st)
  | .Loading => some (.ok p, st)
  | .Failed => some (.error (r.err.getD (.evalError "")), st)

/-- Create the record in `Loading` state and log the evaluation (§4.4 step 6). -/
def beginLoad (p : String) (st : LoaderState) : LoaderState :=
  { graph := (p, ⟨.Loading, [], none⟩) :: st.graph, evalLog := st.evalLog ++ [p] }

/-- Append a freshly defined export to a module's exports object. -/
def addExport (self : String) (n : String) (v : Value) (st : LoaderState) : LoaderState :=
  { st with graph := modifyKV st.graph self (fun r => { r with exports := r.exports ++ [(n, v)] }) }

/-- Transition the record to `Loaded` on success, or to `Failed`, recording
the error, on an engine-thrown error (§4.4 step 6). -/
def finishLoad (p : String) :
    Option (Except LoadError Unit × LoaderState) → Option (Except LoadError String × LoaderState)
  | none => none
  | some (.ok _, st) =>
      some (.ok p, { st with graph := modifyKV st.graph p (fun r => { r with state := .Loaded }) })
  | some (.error e, st) =>
      some (.error e,
       { st with graph := modifyKV st.graph p (fun r => { r with state := .Failed, err := some e }) })

/-- Evaluate a module body statement by statement; `req` is the re-entrant
`require` supplied by the loader. -/
def evalStmts (req : String → LoaderState → Option (Except LoadError String × LoaderState))
    (self : String) : List Stmt → LoaderState → Option (Except LoadError Unit × LoaderState)
  | [], st => some (.ok (), st)
  | .defineExport n v :: rest, st => evalStmts req self rest (addExport self n v st)
  | .throwErr msg :: _, st => some (.error (.evalError msg), st)
  | .reqStmt p :: rest, st =>
      match req p st with
      | none => none
      | some (.ok _, st2) => evalStmts req self rest st2
      | some (.error e, st2) => some (.error e, st2)
  | .reqSnapshot p n :: rest, st =>
      match req p st with
      | none => none
      | some (.ok ref, st2) =>
          evalStmts req self rest
            (addExport self n (.obj (((assocFind st2.graph ref).map ModuleRecord.exports).getD [])) st2)
      | some (.error e, st2) => some (.error e, st2)

/-- Modelled from the spec: `require` on an already-resolved absolute path
(§4.4 steps 3–6).  `fuel` bounds the depth of nested fresh evaluations; a
`none` result models stack exhaustion and is what cycle safety must rule
out. -/
def loadPath (fs : FS) : Nat → String → LoaderState → Option (Except LoadError String × LoaderState)
  | fuel, p, st =>
    match assocFind st.graph p with
    | some r => cachedResult p r st
    | none =>
      match fuel with
      | 0 => none
      | fuel' + 1 =>
        match assocFind fs p with
        | none => some (.error (.moduleNotFound p), st)
        | some body =>
            finishLoad p (evalStmts (fun q s => loadPath fs fuel' q s) p body (beginLoad p st))

/-- Modelled from the spec: resolver step 2 needs to know whether a resolved
path already carries an extension — whether the last path component contains
a dot. -/
def splitOnChar (sep : Char) : List Char → List (List Char)
  | [] => [[]]
  | c :: rest =>
      if c = sep then [] :: splitOnChar sep rest
      else
        match splitOnChar sep rest with
        | [] => [[c]]
        | l :: ls => (c :: l) :: ls

/-- Join character chunks with a separator character (inverse of `splitOnChar`). -/
def joinChar (sep : Char) : List (List Char) → List Char
  | [] => []
  | [l] => l
  | l :: ls => l ++ sep :: joinChar sep ls

/-- Boolean prefix test on character lists. -/
def listStartsWith : List Char → List Char → Bool
  | [], _ => true
  | _ :: _, [] => false
  | a :: as, b :: bs => a = b && listStartsWith (as) bs

/-- Whether the last `/`-separated component of a path contains a `.`. -/
def hasExtension (p : String) : Bool :=
  (((splitOnChar '/' p.toList).reverse).headD []).contains '.'

/-- Directory of a path: everything before the last `/`-separated component. -/
def dirname (p : String) : String :=
  ⟨joinChar '/' ((splitOnChar '/' p.toList).dropLast)⟩

/-- String prefix test built on `listStartsWith`. -/
def strStarts (s pre : String) : Bool := listStartsWith pre.toList s.toList

/-- Drop the first `n` characters of a string. -/
def strDrop (s : String) (n : Nat) : String := ⟨s.toList.drop n⟩

/-- Modelled from the spec: resolver step 1 (§4.4) — a `./` specifier is
resolved against the referrer's directory, a `../` specifier against its
parent, anything else is treated module-relative to the referrer's
directory. -/
def resolveBase (specifier referrerDir : String) : String :=
  if strStarts specifier "./" then referrerDir ++ "/" ++ strDrop specifier 2
  else if strStarts specifier "../" then dirname referrerDir ++ "/" ++ strDrop specifier 3
  else referrerDir ++ "/" ++ specifier

/-- Modelled from the spec: resolver step 2 (§4.4) — an extensionless
resolved path probes `.js` first, then `.ts`; the first existing file wins
and `ModuleNotFound` is raised when neither exists. -/
def probeExtensions (files : List String) (p : String) : Except LoadError String :=
  if hasExtension p then
    if files.contains p then .ok p else .error (.moduleNotFound p)
  else if files.contains (p ++ ".js") then .ok (p ++ ".js")
  else if files.contains (p ++ ".ts") then .ok (p ++ ".ts")
  else .error (.moduleNotFound p)

/-- Full specifier resolution: step 1 then step 2 of §4.4. -/
def resolveSpec (files : List String) (specifier referrerDir : String) :
    Except LoadError String :=
  probeExtensions files (resolveBase specifier referrerDir)

/-- The set of absolute paths the filesystem knows. -/
def modulePaths (fs : FS) : List String := fs.map Prod.fst

/-- Modelled from the spec: the public `require(specifier, referrer)`
operation — resolve, then load by canonical absolute path (§4.4). -/
def requireMod (fs : FS) (fuel : Nat) (specifier referrerDir : String) (st : LoaderState) :
    Option (Except LoadError String × LoaderState) :=
  match resolveSpec (modulePaths fs) specifier referrerDir with
  | .error e => some (.error e, st)
  | .ok p => loadPath fs fuel p st

/-- One process run: a sequence of `require` calls against one shared
ModuleGraph (spec §3: the graph lives for the whole run). -/
def runRequires (fs : FS) (fuel : Nat) : List (String × String) → LoaderState → Option LoaderState
  | [], st => some st
  | (spec, dir) :: rest, st =>
      match requireMod fs fuel spec dir st with
      | none => none
      | some (_, st') => runRequires fs fuel rest st'

/-- The empty loader state a process run starts from. -/
def initState : LoaderState := ⟨[], []⟩

/-- A module body consisting only of export definitions. -/
def defineStmts (l : List (String × Value)) : List Stmt :=
  l.map (fun kv => Stmt.defineExport kv.1 kv.2)

/-- Fold a list of export definitions into the loader state. -/
def addExports (self : String) (l : List (String × Value)) (st : LoaderState) : LoaderState :=
  l.foldl (fun s kv => addExport self kv.1 kv.2 s) st

/-- Record state and recorded error of every record present before a loader
step survive the step unchanged (records are never removed and never change
state behind the loader's back). -/
def RecPres (st st' : LoaderState) : Prop :=
  ∀ q r, assocFind st.graph q = some r →
    ∃ r', assocFind st'.graph q = some r' ∧ r'.state = r.state ∧ r'.err = r.err

/-- The at-most-one-evaluation invariant: the evaluation log is duplicate
free and every logged path owns a record in the graph. -/
def EvalOnce (st : LoaderState) : Prop :=
  st.evalLog.Nodup ∧ ∀ p, p ∈ st.evalLog → (assocFind st.graph p).isSome

/-! ## Type-Syntax Stripper (spec §3, §4.2)

Modelled from the spec: the stripper implementation is not among the
provided source files; the line-preserving stripping algorithm is embedded
from §4.2 — intra-line removals become equal-length runs of spaces, whole
interface/type/enum declarations become blank lines. -/

/-- The newline character. -/
def nlChar : Char := Char.ofNat 10

/-- Opening curly brace. -/
def obraceChar : Char := Char.ofNat 123

/-- Closing curly brace. -/
def cbraceChar : Char := Char.ofNat 125

/-- Single-quote character. -/
def squoteChar : Char := Char.ofNat 39

/-- Double-quote character. -/
def dquoteChar : Char := Char.ofNat 34

/-- Split a source text into its newline-separated lines. -/
def splitLines (s : String) : List String :=
  (splitOnChar nlChar s.toList).map (fun l => ⟨l⟩)

/-- Join lines back with newlines. -/
def joinLines (ls : List String) : String :=
  ⟨joinChar nlChar (ls.map String.toList)⟩

/-- Scanner state while stripping one line: plain code, inside a string
literal (scanner protection: string contents are never touched, spec §4.1),
or inside a type annotation at a bracket depth. -/
inductive LineSt where
  | norm : LineSt
  | instr : Char → LineSt
  | ann : Nat → LineSt

/-- Characters that end a depth-zero type annotation and are kept
(spec §4.2: annotations sit before `=`, `,`, `)`, `\x7b`). -/
def annTerminator (c : Char) : Bool :=
  c = '=' || c = ',' || c = ')' || c = obraceChar

/-- Brackets that deepen an annotation (nested generics/tuples/params). -/
def annOpens (c : Char) : Bool := c = '(' || c = '[' || c = '<'

/-- Brackets that close one annotation nesting level. -/
def annCloses (c : Char) : Bool := c = ')' || c = ']' || c = '>'

/-- One state transition of the intra-line stripper. -/
def lineStep (st : LineSt) (c : Char) : LineSt :=
  match st with
  | .norm =>
      if c = dquoteChar || c = squoteChar then .instr c
      else if c = ':' then .ann 0
      else .norm
  | .instr q => if c = q then .norm else .instr q
  | .ann d =>
      if d = 0 && annTerminator c then .norm
      else if annOpens c then .ann (d + 1)
      else if annCloses c then .ann (d - 1)
      else .ann d

/-- Whether the current character belongs to a stripped annotation span. -/
def stripsChar (st : LineSt) (c : Char) : Bool :=
  match st with
  | .norm => c = ':'
  | .instr _ => false
  | .ann d => !(d = 0 && annTerminator c)

/-- Strip annotation spans from one line, emitting exactly one character —
the original or a space filler — per input character (spec §4.2: equal
length spans so surrounding columns are unaffected). -/
def stripLineChars : LineSt → List Char → List Char
  | _, [] => []
  | st, c :: cs => (if stripsChar st c then ' ' else c) :: stripLineChars (lineStep st c) cs

/-- Intra-line type-annotation stripping. -/
def stripAnnotationsLine (l : String) : String := ⟨stripLineChars .norm l.toList⟩

/-- Drop leading spaces and tabs. -/
def trimLeadCh (cs : List Char) : List Char :=
  cs.dropWhile (fun c => c = ' ' || c = Char.ofNat 9)

/-- Whether a line opens a whole declaration that the stripper removes:
`interface …`, `type …` or `enum …` (spec §4.2). -/
def startsRemoval (l : String) : Bool :=
  listStartsWith "interface ".toList (trimLeadCh l.toList) ||
  listStartsWith "type ".toList (trimLeadCh l.toList) ||
  listStartsWith "enum ".toList (trimLeadCh l.toList)

/-- Brace depth after scanning one line of a removed declaration block. -/
def braceDepthAfter (d : Nat) (l : String) : Nat :=
  d + l.toList.count obraceChar - l.toList.count cbraceChar

/-- Line-by-line stripping: whole removed declarations become blank lines,
other lines lose their annotations in place (spec §4.2). -/
def stripLines : Nat → List String → List String
  | _, [] => []
  | 0, l :: ls =>
      if startsRemoval l then "" :: stripLines (braceDepthAfter 0 l) ls
      else stripAnnotationsLine l :: stripLines 0 ls
  | d + 1, l :: ls => "" :: stripLines (braceDepthAfter (d + 1) l) ls

/-- Modelled from the spec: the Type-Syntax Stripper entry point — split
into lines, strip, and re-join (§4.2). -/
def stripTypes (s : String) : String := joinLines (stripLines 0 (splitLines s))

/-! ## Module-Syntax Rewriter (spec §4.3)

Modelled from the spec: the rewriter implementation is not among the
provided source files; the three literal import shapes and their CommonJS
rewrites are embedded from §4.3 and the README's Import Conversion
Examples. -/

/-- Backslash character. -/
def bslashChar : Char := Char.ofNat 92

/-- Is this character a string-literal quote? -/
def isQuoteChar (c : Char) : Bool := c = squoteChar || c = dquoteChar

/-- Scan the inside of a quoted literal: the characters before the closing
quote, plus what follows it. -/
def quoteSpan (q : Char) : List Char → Option (List Char × List Char)
  | [] => none
  | c :: rest =>
      if c = q then some ([], rest)
      else (quoteSpan q rest).map (fun p => (c :: p.1, p.2))

/-- Parse a quoted module specifier after optional spaces: the quote
character used, the specifier text, and the remainder. -/
def parseQuoted (cs : List Char) : Option (Char × List Char × List Char) :=
  match trimLeadCh cs with
  | [] => none
  | c :: rest =>
      if isQuoteChar c then (quoteSpan c rest).map (fun p => (c, p.1, p.2))
      else none

/-- Emit `require(<q><spec><q>)` with the original quote style. -/
def requireCall (q : Char) (inner : List Char) : List Char :=
  "require(".toList ++ q :: (inner ++ q :: ")".toList)

/-- Parse `from '<spec>'` after an import clause. -/
def parseFromClause (cs : List Char) : Option (Char × List Char) :=
  if listStartsWith "from".toList (trimLeadCh cs) then
    match parseQuoted ((trimLeadCh cs).drop 4) with
    | some (q, inner, _) => some (q, inner)
    | none => none
  else none

/-- Scan a named-import brace group: its inside and what follows the
closing brace. -/
def takeBraceGroup : List Char → Option (List Char × List Char)
  | [] => none
  | c :: rest =>
      if c = cbraceChar then some ([], rest)
      else (takeBraceGroup rest).map (fun p => (c :: p.1, p.2))

/-- Modelled from the spec: the Module-Syntax Rewriter on one import line
(§4.3) — `import '<m>'` becomes `require('<m>')`, a named import becomes a
`const` destructuring of `require`, a default import becomes a plain
`const` of `require`; anything else is left alone. -/
def rewriteImportLine (l : String) : String :=
  if listStartsWith "import ".toList (trimLeadCh l.toList) then
    match trimLeadCh ((trimLeadCh l.toList).drop 7) with
    | [] => l
    | c :: rest =>
        if isQuoteChar c then
          match quoteSpan c rest with
          | some (inner, _) => ⟨requireCall c inner⟩
          | none => l
        else if c = obraceChar then
          match takeBraceGroup rest with
          | some (inner, rest2) =>
              match parseFromClause rest2 with
              | some (q, spec) =>
                  ⟨"const ".toList ++ obraceChar :: (inner ++ cbraceChar ::
                    (" = ".toList ++ requireCall q spec))⟩
              | none => l
          | none => l
        else
          match parseFromClause ((c :: rest).dropWhile (fun ch => ch != ' ')) with
          | some (q, spec) =>
              ⟨"const ".toList ++ ((c :: rest).takeWhile (fun ch => ch != ' ') ++
                (" = ".toList ++ requireCall q spec))⟩
          | none => l
  else l

/-! ## EnvStore: the `.env` parser (spec §3, §4.5, §6)

Modelled from the spec: the `.env` loader implementation is not among the
provided source files; the grammar and expansion rules are embedded from
the `.env` grammar of §6 and the Bootstrap steps of §4.5. -/

/-- Characters allowed in a `$NAME` / `$\x7bNAME\x7d` variable name. -/
def isNameChar (c : Char) : Bool := c.isAlphanum || c = '_'

/-- Split a leading run of name characters from the rest. -/
def spanName : List Char → (List Char × List Char)
  | [] => ([], [])
  | c :: rest =>
      if isNameChar c then
        ((spanName rest).1.cons c, (spanName rest).2)
      else ([], c :: rest)

/-- Resolve a variable against OS env ∪ already-parsed keys; a key parsed
from the files wins over the OS value (spec §4.5 step 3); an unknown
variable expands to the empty string. -/
def lookupVar (os store : List (String × String)) (name : String) : String :=
  match assocFind store name with
  | some v => v
  | none => (assocFind os name).getD ""

/-- The supported escape sequences `\n \r \t \\ \"` (spec §6); any other
escaped character stands for itself. -/
def escMap (c : Char) : Char :=
  if c = 'n' then nlChar
  else if c = 'r' then Char.ofNat 13
  else if c = 't' then Char.ofNat 9
  else c

/-- One left-to-right expansion pass: escapes and `$\x7bNAME\x7d` / `$NAME`
references; an expansion's result is appended verbatim and never rescanned
(single pass, no recursive re-expansion).  `fuel` is an upper bound on the
number of scanned characters; each step consumes at least one input
character, so `length + 1` fuel never runs out. -/
def expandGo (os store : List (String × String)) : Nat → List Char → List Char
  | 0, cs => cs
  | _ + 1, [] => []
  | f + 1, c :: rest =>
      if c = bslashChar then
        match rest with
        | [] => [c]
        | e :: rest2 => escMap e :: expandGo os store f rest2
      else if c = '$' then
        match rest with
        | [] => [c]
        | ob :: rest2 =>
            if ob = obraceChar then
              match spanName rest2 with
              | (name, cb :: rest3) =>
                  if cb = cbraceChar then
                    (lookupVar os store ⟨name⟩).toList ++ expandGo os store f rest3
                  else c :: expandGo os store f rest
              | (_, []) => c :: expandGo os store f rest
            else
              match spanName rest with
              | ([], _) => c :: expandGo os store f rest
              | (name, more) => (lookupVar os store ⟨name⟩).toList ++ expandGo os store f more
      else c :: expandGo os store f rest

/-- Expansion of a value's characters with always-sufficient fuel. -/
def expandChars (os store : List (String × String)) (cs : List Char) : List Char :=
  expandGo os store (cs.length + 1) cs

/-- Single-quoted values are taken completely literally up to the closing
quote: no escapes, no expansion (spec §6). -/
def takeSingleQuoted : List Char → List Char
  | [] => []
  | c :: rest => if c = squoteChar then [] else c :: takeSingleQuoted rest

/-- The inside of a double-quoted value; a backslash protects the next
character (so an escaped quote does not terminate the literal). -/
def takeDoubleQuoted : List Char → List Char
  | [] => []
  | c :: rest =>
      if c = bslashChar then
        match rest with
        | [] => [c]
        | e :: rest2 => c :: e :: takeDoubleQuoted rest2
      else if c = dquoteChar then []
      else c :: takeDoubleQuoted rest

/-- Parse a VALUE: single-quoted literally; double-quoted and unquoted with
escapes and expansion (spec §6). -/
def parseValueChars (os store : List (String × String)) (v : List Char) : String :=
  match v with
  | [] => ""
  | c :: _ =>
      if c = squoteChar then ⟨takeSingleQuoted v.tail⟩
      else if c = dquoteChar then ⟨expandChars os store (takeDoubleQuoted v.tail)⟩
      else ⟨expandChars os store v⟩

/-- Split a line at the first `=`. -/
def spanKey : List Char → (List Char × List Char)
  | [] => ([], [])
  | c :: rest =>
      if c = '=' then ([], c :: rest)
      else ((spanKey rest).1.cons c, (spanKey rest).2)

/-- Modelled from the spec: one `.env` line (§6) — blank lines and `#`
comments are ignored, `KEY=VALUE` yields a binding whose value is parsed
against the OS env and the keys parsed so far. -/
def parseEnvLine (os store : List (String × String)) (line : String) :
    Option (String × String) :=
  match trimLeadCh line.toList with
  | [] => none
  | c :: rest =>
      if c = '#' then none
      else
        match spanKey (c :: rest) with
        | (k, c2 :: v) =>
            if c2 = '=' then some (⟨k⟩, parseValueChars os store v) else none
        | (_, []) => none

/-- The key a line would bind, independent of the store. -/
def lineKey (line : String) : Option String :=
  match trimLeadCh line.toList with
  | [] => none
  | c :: rest =>
      if c = '#' then none
      else
        match spanKey (c :: rest) with
        | (k, c2 :: _) => if c2 = '=' then some ⟨k⟩ else none
        | (_, []) => none

/-- Parse a file's lines in order into the EnvStore; a later line for the
same key overwrites the earlier binding. -/
def parseEnvLines (os : List (String × String)) :
    List (String × String) → List String → List (String × String)
  | store, [] => store
  | store, l :: ls =>
      match parseEnvLine os store l with
      | none => parseEnvLines os store ls
      | some (k, v) => parseEnvLines os (insertKV store k v) ls

/-- Modelled from the spec: Bootstrap env loading (§4.5 steps 1–2) — parse
`.env` then `.env.local` into one store; a missing file contributes
nothing (not an error); later files' keys overwrite earlier ones. -/
def buildEnvStore (os : List (String × String))
    (envFile envLocalFile : Option (List String)) : List (String × String) :=
  parseEnvLines os (parseEnvLines os [] (envFile.getD [])) (envLocalFile.getD [])

/-! ## UUID utilities (rode.d.ts)

Modelled from the spec: `Rode.uuid.validate` / `Rode.uuid.version` exist in
the repository only as `rode.d.ts` declarations; they are embedded from
those doc comments — `validate` checks the 8-4-4-4-12 hex format, `version`
returns the version number (1–5) or null if invalid. -/

/-- Hexadecimal digit test. -/
def isHexDigitCh (c : Char) : Bool :=
  (('0' ≤ c) && (c ≤ '9')) || (('a' ≤ c) && (c ≤ 'f')) || (('A' ≤ c) && (c ≤ 'F'))

/-- Numeric value of a hexadecimal digit. -/
def hexVal (c : Char) : Nat :=
  if ('0' ≤ c) && (c ≤ '9') then c.toNat - '0'.toNat
  else if ('a' ≤ c) && (c ≤ 'f') then 10 + (c.toNat - 'a'.toNat)
  else if ('A' ≤ c) && (c ≤ 'F') then 10 + (c.toNat - 'A'.toNat)
  else 0

/-- Modelled from the spec: `Rode.uuid.validate` — true exactly for the
dash-separated 8-4-4-4-12 hexadecimal format. -/
def uuidValidate (s : String) : Bool :=
  ((splitOnChar '-' s.toList).map List.length == [8, 4, 4, 4, 12]) &&
    (splitOnChar '-' s.toList).all (fun g => g.all isHexDigitCh)

/-- Modelled from the spec: `Rode.uuid.version` — the version nibble (the
character at index 14) as a number between 1 and 5, or `none` for any
invalid input (rode.d.ts: "Version number (1-5) or null if invalid"). -/
def uuidVersion (s : String) : Option Nat :=
  if uuidValidate s then
    match (s.toList.drop 14).head? with
    | some c => if 1 ≤ hexVal c ∧ hexVal c ≤ 5 then some (hexVal c) else none
    | none => none
  else none

/-! ## Theorems -/

theorem assocFind_insertKV_self {α : Type} (l : List (String × α)) (k : String) (v : α) :
    assocFind (insertKV l k v) k = some v := by
  induction l with
  | nil => simp [insertKV, assocFind]
  | cons hd tl ih =>
    obtain ⟨k', v'⟩ := hd
    by_cases h : k' = k
    · simp [insertKV, assocFind, h]
    · simp [insertKV, assocFind, h, ih]

theorem assocFind_insertKV_ne {α : Type} (l : List (String × α)) (k k' : String) (v : α)
    (h : k ≠ k') : assocFind (insertKV l k v) k' = assocFind l k' := by
  induction l with
  | nil => simp [insertKV, assocFind, h]
  | cons hd tl ih =>
    obtain ⟨k₀, v₀⟩ := hd
    by_cases h₀ : k₀ = k
    · subst h₀; simp [insertKV, assocFind, h]
    · simp [insertKV, assocFind, h₀, ih]

theorem assocFind_modifyKV_self {α : Type} (l : List (String × α)) (k : String)
    (f : α → α) (v : α) (h : assocFind l k = some v) :
    assocFind (modifyKV l k f) k = some (f v) := by
  induction l with
  | nil => simp [assocFind] at h
  | cons hd tl ih =>
    obtain ⟨k', v'⟩ := hd
    by_cases hk : k' = k
    · simp [assocFind, hk] at h
      simp [modifyKV, assocFind, hk, h]
    · simp [assocFind, hk] at h
      simp [modifyKV, assocFind, hk, ih h]

theorem assocFind_modifyKV_ne {α : Type} (l : List (String × α)) (k k' : String)
    (f : α → α) (h : k ≠ k') : assocFind (modifyKV l k f) k' = assocFind l k' := by
  induction l with
  | nil => simp [modifyKV, assocFind]
  | cons hd tl ih =>
    obtain ⟨k₀, v₀⟩ := hd
    by_cases h₀ : k₀ = k
    · subst h₀; simp [modifyKV, assocFind, h]
    · simp [modifyKV, assocFind, h₀, ih]

theorem assocFind_modifyKV_isSome {α : Type} (l : List (String × α)) (k k' : String)
    (f : α → α) : (assocFind (modifyKV l k f) k').isSome = (assocFind l k').isSome := by
  induction l with
  | nil => simp [modifyKV]
  | cons hd tl ih =>
    obtain ⟨k₀, v₀⟩ := hd
    by_cases h₀ : k₀ = k
    · subst h₀
      by_cases h' : k₀ = k'
      · simp [modifyKV, assocFind, h']
      · simp [modifyKV, assocFind, h', ih]
    · by_cases h' : k₀ = k'
      · subst h'
        simp [modifyKV, assocFind, h₀]
      · simp [modifyKV, assocFind, h₀, h', ih]

/-! ### Unfolding lemmas for the loader -/

theorem loadPath_cached (fs : FS) (fuel : Nat) (p : String) (st : LoaderState)
    (r : ModuleRecord) (h : assocFind st.graph p = some r) :
    loadPath fs fuel p st = cachedResult p r st := by
  cases fuel <;> simp only [loadPath, h]

theorem loadPath_zero (fs : FS) (p : String) (st : LoaderState)
    (h : assocFind st.graph p = none) : loadPath fs 0 p st = none := by
  simp only [loadPath, h]

theorem loadPath_notFound (fs : FS) (fuel : Nat) (p : String) (st : LoaderState)
    (h1 : assocFind st.graph p = none) (h2 : assocFind fs p = none) :
    loadPath fs (fuel + 1) p st = some (.error (.moduleNotFound p), st) := by
  simp only [loadPath, h1, h2]

theorem loadPath_step (fs : FS) (fuel : Nat) (p : String) (st : LoaderState)
    (body : List Stmt) (h1 : assocFind st.graph p = none) (h2 : assocFind fs p = some body) :
    loadPath fs (fuel + 1) p st =
      finishLoad p (evalStmts (fun q s => loadPath fs fuel q s) p body (beginLoad p st)) := by
  simp only [loadPath, h1, h2]

theorem cachedResult_state (p : String) (r : ModuleRecord) (st : LoaderState)
    (res : Except LoadError String) (st' : LoaderState)
    (h : cachedResult p r st = some (res, st')) : st' = st := by
  obtain ⟨state, ex, err⟩ := r
  cases state <;> simp [cachedResult] at h <;> exact h.2.symm

theorem loadPath_ok_ref (fs : FS) (fuel : Nat) (p : String) (st : LoaderState)
    (ref : String) (st' : LoaderState)
    (h : loadPath fs fuel p st = some (.ok ref, st')) : ref = p := by
  cases hg : assocFind st.graph p with
  | some r =>
    rw [loadPath_cached fs fuel p st r hg] at h
    obtain ⟨state, ex, err⟩ := r
    cases state <;> simp [cachedResult] at h
    · exact h.1.symm
    · exact h.1.symm
  | none =>
    cases fuel with
    | zero => rw [loadPath_zero fs p st hg] at h; cases h
    | succ fuel =>
      cases hf : assocFind fs p with
      | none => rw [loadPath_notFound fs fuel p st hg hf] at h; simp at h
      | some body =>
        rw [loadPath_step fs fuel p st body hg hf] at h
        cases he : evalStmts (fun q s => loadPath fs fuel q s) p body (beginLoad p st) with
        | none => rw [he] at h; cases h
        | some val =>
          obtain ⟨er, st2⟩ := val
          rw [he] at h
          cases er <;> simp [finishLoad] at h
          exact h.1.symm

/-! ### Record preservation: state and error of an existing record never change -/

theorem recPres_refl (st : LoaderState) : RecPres st st :=
  fun _ r h => ⟨r, h, rfl, rfl⟩

theorem recPres_trans {a b c : LoaderState} (h1 : RecPres a b) (h2 : RecPres b c) :
    RecPres a c := by
  intro q r h
  obtain ⟨r1, hf1, hs1, he1⟩ := h1 q r h
  obtain ⟨r2, hf2, hs2, he2⟩ := h2 q r1 hf1
  exact ⟨r2, hf2, hs2.trans hs1, he2.trans he1⟩

theorem recPres_modify (st : LoaderState) (k : String) (f : ModuleRecord → ModuleRecord)
    (hf : ∀ r, (f r).state = r.state ∧ (f r).err = r.err) :
    RecPres st { st with graph := modifyKV st.graph k f } := by
  intro q r h
  by_cases hk : k = q
  · subst hk
    exact ⟨f r, assocFind_modifyKV_self _ _ _ _ h, (hf r).1, (hf r).2⟩
  · exact ⟨r, by simpa [assocFind_modifyKV_ne _ _ _ _ hk] using h, rfl, rfl⟩

theorem recPres_addExport (self n : String) (v : Value) (st : LoaderState) :
    RecPres st (addExport self n v st) :=
  recPres_modify st self _ (fun _ => ⟨rfl, rfl⟩)

theorem evalStmts_pres (req : String → LoaderState → Option (Except LoadError String × LoaderState))
    (self : String)
    (hreq : ∀ q s res s', req q s = some (res, s') → RecPres s s') :
    ∀ (stmts : List Stmt) (st : LoaderState) (res : Except LoadError Unit) (st' : LoaderState),
      evalStmts req self stmts st = some (res, st') → RecPres st st' := by
  intro stmts
  induction stmts with
  | nil =>
    intro st res st' h
    simp [evalStmts] at h
    rw [← h.2]
    exact recPres_refl st
  | cons stmt rest ih =>
    intro st res st' h
    cases stmt with
    | defineExport n v =>
      simp only [evalStmts] at h
      exact recPres_trans (recPres_addExport self n v st) (ih _ _ _ h)
    | throwErr msg =>
      simp [evalStmts] at h
      rw [← h.2]
      exact recPres_refl st
    | reqStmt p =>
      simp only [evalStmts] at h
      cases hr : req p st with
      | none => rw [hr] at h; cases h
      | some val =>
        obtain ⟨er, st2⟩ := val
        rw [hr] at h
        cases er with
        | ok u => exact recPres_trans (hreq _ _ _ _ hr) (ih _ _ _ h)
        | error e =>
          simp at h
          rw [← h.2]
          exact hreq _ _ _ _ hr
    | reqSnapshot p n =>
      simp only [evalStmts] at h
      cases hr : req p st with
      | none => rw [hr] at h; cases h
      | some val =>
        obtain ⟨er, st2⟩ := val
        rw [hr] at h
        cases er with
        | ok ref =>
          exact recPres_trans (hreq _ _ _ _ hr)
            (recPres_trans (recPres_addExport self n _ st2) (ih _ _ _ h))
        | error e =>
          simp at h
          rw [← h.2]
          exact hreq _ _ _ _ hr

theorem loadPath_pres (fs : FS) :
    ∀ (fuel : Nat) (p : String) (st : LoaderState) (res : Except LoadError String)
      (st' : LoaderState), loadPath fs fuel p st = some (res, st') → RecPres st st' := by
  intro fuel
  induction fuel with
  | zero =>
    intro p st res st' h
    cases hg : assocFind st.graph p with
    | some r =>
      rw [loadPath_cached fs 0 p st r hg] at h
      rw [cachedResult_state p r st res st' h]
      exact recPres_refl st
    | none => rw [loadPath_zero fs p st hg] at h; cases h
  | succ fuel ih =>
    intro p st res st' h
    cases hg : assocFind st.graph p with
    | some r =>
      rw [loadPath_cached fs (fuel + 1) p st r hg] at h
      rw [cachedResult_state p r st res st' h]
      exact recPres_refl st
    | none =>
      cases hf : assocFind fs p with
      | none =>
        rw [loadPath_notFound fs fuel p st hg hf] at h
        simp at h
        rw [← h.2]
        exact recPres_refl st
      | some body =>
        rw [loadPath_step fs fuel p st body hg hf] at h
        cases he : evalStmts (fun q s => loadPath fs fuel q s) p body (beginLoad p st) with
        | none => rw [he] at h; cases h
        | some val =>
          obtain ⟨er, st2⟩ := val
          rw [he] at h
          have hpres2 : RecPres (beginLoad p st) st2 :=
            evalStmts_pres _ p (fun q s res2 s' hq => ih q s res2 s' hq) body _ _ _ he
          have key : ∀ q r, assocFind st.graph q = some r →
              ∃ r', assocFind st2.graph q = some r' ∧ r'.state = r.state ∧ r'.err = r.err ∧
                q ≠ p := by
            intro q r hq
            have hqp : q ≠ p := by
              intro e; subst e; rw [hq] at hg; cases hg
            have h1 : assocFind (beginLoad p st).graph q = some r := by
              have hpq : p ≠ q := Ne.symm hqp
              simp only [beginLoad, assocFind]
              rw [if_neg hpq]
              exact hq
            obtain ⟨r', h2, hs, herr⟩ := hpres2 q r h1
            exact ⟨r', h2, hs, herr, hqp⟩
          cases er <;> simp [finishLoad] at h <;> rw [← h.2] <;> intro q r hq <;>
            obtain ⟨r', h2, hs, herr, hqp⟩ := key q r hq
          · exact ⟨r', by
              simpa [assocFind_modifyKV_ne st2.graph p q _ (Ne.symm hqp)] using h2,
                hs, herr⟩
          · exact ⟨r', by
              simpa [assocFind_modifyKV_ne st2.graph p q _ (Ne.symm hqp)] using h2,
                hs, herr⟩

/-! ### The at-most-one-evaluation invariant -/

theorem evalOnce_of_mono {st st' : LoaderState} (hlog : st'.evalLog = st.evalLog)
    (hg : ∀ q, (assocFind st.graph q).isSome → (assocFind st'.graph q).isSome)
    (h : EvalOnce st) : EvalOnce st' := by
  refine ⟨hlog ▸ h.1, ?_⟩
  intro p hp
  rw [hlog] at hp
  exact hg p (h.2 p hp)

theorem evalOnce_addExport (self n : String) (v : Value) (st : LoaderState)
    (h : EvalOnce st) : EvalOnce (addExport self n v st) := by
  refine @evalOnce_of_mono st _ rfl ?_ h
  intro q hq
  rw [addExport]
  simpa [assocFind_modifyKV_isSome] using hq

theorem evalOnce_beginLoad (p : String) (st : LoaderState)
    (hg : assocFind st.graph p = none) (h : EvalOnce st) : EvalOnce (beginLoad p st) := by
  constructor
  · have hp : p ∉ st.evalLog := by
      intro hp
      have := h.2 p hp
      rw [hg] at this
      simp at this
    simp [beginLoad, List.nodup_append, h.1, hp]
  · intro q hq
    simp [beginLoad] at hq
    rcases hq with hq | hq
    · have := h.2 q hq
      by_cases hpq : p = q
      · simp [beginLoad, assocFind, hpq]
      · simp [beginLoad, assocFind, hpq]
        exact this
    · subst hq
      simp [beginLoad, assocFind]

theorem evalStmts_evalOnce
    (req : String → LoaderState → Option (Except LoadError String × LoaderState))
    (self : String)
    (hreq : ∀ q s res s', req q s = some (res, s') → EvalOnce s → EvalOnce s') :
    ∀ (stmts : List Stmt) (st : LoaderState) (res : Except LoadError Unit) (st' : LoaderState),
      evalStmts req self stmts st = some (res, st') → EvalOnce st → EvalOnce st' := by
  intro stmts
  induction stmts with
  | nil =>
    intro st res st' h hst
    simp [evalStmts] at h
    rw [← h.2]
    exact hst
  | cons stmt rest ih =>
    intro st res st' h hst
    cases stmt with
    | defineExport n v =>
      simp only [evalStmts] at h
      exact ih _ _ _ h (evalOnce_addExport self n v st hst)
    | throwErr msg =>
      simp [evalStmts] at h
      rw [← h.2]
      exact hst
    | reqStmt p =>
      simp only [evalStmts] at h
      cases hr : req p st with
      | none => rw [hr] at h; cases h
      | some val =>
        obtain ⟨er, st2⟩ := val
        rw [hr] at h
        cases er with
        | ok u => exact ih _ _ _ h (hreq _ _ _ _ hr hst)
        | error e =>
          simp at h
          rw [← h.2]
          exact hreq _ _ _ _ hr hst
    | reqSnapshot p n =>
      simp only [evalStmts] at h
      cases hr : req p st with
      | none => rw [hr] at h; cases h
      | some val =>
        obtain ⟨er, st2⟩ := val
        rw [hr] at h
        cases er with
        | ok ref =>
          exact ih _ _ _ h (evalOnce_addExport self n _ st2 (hreq _ _ _ _ hr hst))
        | error e =>
          simp at h
          rw [← h.2]
          exact hreq _ _ _ _ hr hst

theorem loadPath_evalOnce (fs : FS) :
    ∀ (fuel : Nat) (p : String) (st : LoaderState) (res : Except LoadError String)
      (st' : LoaderState),
      loadPath fs fuel p st = some (res, st') → EvalOnce st → EvalOnce st' := by
  intro fuel
  induction fuel with
  | zero =>
    intro p st res st' h hst
    cases hg : assocFind st.graph p with
    | some r =>
      rw [loadPath_cached fs 0 p st r hg] at h
      rw [cachedResult_state p r st res st' h]
      exact hst
    | none => rw [loadPath_zero fs p st hg] at h; cases h
  | succ fuel ih =>
    intro p st res st' h hst
    cases hg : assocFind st.graph p with
    | some r =>
      rw [loadPath_cached fs (fuel + 1) p st r hg] at h
      rw [cachedResult_state p r st res st' h]
      exact hst
    | none =>
      cases hf : assocFind fs p with
      | none =>
        rw [loadPath_notFound fs fuel p st hg hf] at h
        simp at h
        rw [← h.2]
        exact hst
      | some body =>
        rw [loadPath_step fs fuel p st body hg hf] at h
        cases he : evalStmts (fun q s => loadPath fs fuel q s) p body (beginLoad p st) with
        | none => rw [he] at h; cases h
        | some val =>
          obtain ⟨er, st2⟩ := val
          rw [he] at h
          have h2 : EvalOnce st2 :=
            evalStmts_evalOnce _ p (fun q s res2 s' hq => ih q s res2 s' hq) body _ _ _ he
              (evalOnce_beginLoad p st hg hst)
          cases er <;> simp [finishLoad] at h <;> rw [← h.2] <;>
            refine @evalOnce_of_mono st2 _ rfl ?_ h2 <;> intro q hq <;>
            simpa [assocFind_modifyKV_isSome] using hq

/-! ### Lifting to `require` calls and whole runs -/

theorem requireMod_pres (fs : FS) (fuel : Nat) (s d : String) (st : LoaderState)
    (res : Except LoadError String) (st' : LoaderState)
    (h : requireMod fs fuel s d st = some (res, st')) : RecPres st st' := by
  rw [requireMod] at h
  cases hres : resolveSpec (modulePaths fs) s d with
  | error e =>
    rw [hres] at h
    simp at h
    rw [← h.2]
    exact recPres_refl st
  | ok p =>
    rw [hres] at h
    exact loadPath_pres fs fuel p st res st' h

theorem requireMod_evalOnce (fs : FS) (fuel : Nat) (s d : String) (st : LoaderState)
    (res : Except LoadError String) (st' : LoaderState)
    (h : requireMod fs fuel s d st = some (res, st')) (hst : EvalOnce st) : EvalOnce st' := by
  rw [requireMod] at h
  cases hres : resolveSpec (modulePaths fs) s d with
  | error e =>
    rw [hres] at h
    simp at h
    rw [← h.2]
    exact hst
  | ok p =>
    rw [hres] at h
    exact loadPath_evalOnce fs fuel p st res st' h hst

theorem runRequires_pres (fs : FS) (fuel : Nat) :
    ∀ (reqs : List (String × String)) (st st' : LoaderState),
      runRequires fs fuel reqs st = some st' → RecPres st st' := by
  intro reqs
  induction reqs with
  | nil =>
    intro st st' h
    simp [runRequires] at h
    rw [← h]
    exact recPres_refl st
  | cons hd tl ih =>
    intro st st' h
    obtain ⟨spec, dir⟩ := hd
    simp only [runRequires] at h
    cases hr : requireMod fs fuel spec dir st with
    | none => rw [hr] at h; cases h
    | some val =>
      obtain ⟨res, st2⟩ := val
      rw [hr] at h
      exact recPres_trans (requireMod_pres fs fuel spec dir st res st2 hr) (ih st2 st' h)

theorem runRequires_evalOnce (fs : FS) (fuel : Nat) :
    ∀ (reqs : List (String × String)) (st st' : LoaderState),
      runRequires fs fuel reqs st = some st' → EvalOnce st → EvalOnce st' := by
  intro reqs
  induction reqs with
  | nil =>
    intro st st' h hst
    simp [runRequires] at h
    rw [← h]
    exact hst
  | cons hd tl ih =>
    intro st st' h hst
    obtain ⟨spec, dir⟩ := hd
    simp only [runRequires] at h
    cases hr : requireMod fs fuel spec dir st with
    | none => rw [hr] at h; cases h
    | some val =>
      obtain ⟨res, st2⟩ := val
      rw [hr] at h
      exact ih st2 st' h (requireMod_evalOnce fs fuel spec dir st res st2 hr hst)

theorem evalOnce_init : EvalOnce initState := by
  constructor
  · simp [initState]
  · intro p hp
    simp [initState] at hp

/-! ### Claim theorems for the loader -/

/-- C1: Singleton caching — two `require` calls whose specifiers resolve to
the same canonical absolute path return the identical exportsObject
reference; a `require` of a `Loaded` record returns its exportsObject at
once without touching the state (hence without re-executing anything); and
over any whole run starting from the empty graph, every absolute path is
evaluated at most once. -/
theorem claim_singleton_caching :
    (∀ (fs : FS) (fuel₁ fuel₂ : Nat) (s₁ d₁ s₂ d₂ p : String)
        (st₀ st₁ stA stB : LoaderState) (r₁ r₂ : String),
        resolveSpec (modulePaths fs) s₁ d₁ = .ok p →
        resolveSpec (modulePaths fs) s₂ d₂ = .ok p →
        requireMod fs fuel₁ s₁ d₁ st₀ = some (.ok r₁, stA) →
        requireMod fs fuel₂ s₂ d₂ st₁ = some (.ok r₂, stB) →
        r₁ = r₂) ∧
    (∀ (fs : FS) (fuel : Nat) (p : String) (st : LoaderState) (r : ModuleRecord),
        assocFind st.graph p = some r → r.state = .Loaded →
        loadPath fs fuel p st = some (.ok p, st)) ∧
    (∀ (fs : FS) (fuel : Nat) (reqs : List (String × String)) (st' : LoaderState),
        runRequires fs fuel reqs initState = some st' → st'.evalLog.Nodup) := by
  refine ⟨?_, ?_, ?_⟩
  · intro fs fuel₁ fuel₂ s₁ d₁ s₂ d₂ p st₀ st₁ stA stB r₁ r₂ hres1 hres2 h1 h2
    rw [requireMod, hres1] at h1
    rw [requireMod, hres2] at h2
    rw [loadPath_ok_ref fs fuel₁ p st₀ r₁ stA h1, loadPath_ok_ref fs fuel₂ p st₁ r₂ stB h2]
  · intro fs fuel p st r hg hs
    rw [loadPath_cached fs fuel p st r hg]
    simp [cachedResult, hs]
  · intro fs fuel reqs st' h
    exact (runRequires_evalOnce fs fuel reqs initState st' h evalOnce_init).1

/-- Witness for C1 at a concrete one-module filesystem: the two requires of
`./m` return the same reference, the second (cached, `Loaded`) require
leaves the state untouched, and the run's evaluation log is duplicate
free. -/
theorem claim_singleton_caching_witness :
    (("/m.js" : String) = "/m.js") ∧
    (loadPath [("/m.js", [Stmt.defineExport "x" (Value.num 1)])] 5 "/m.js"
        ⟨[("/m.js", ⟨.Loaded, [("x", Value.num 1)], none⟩)], ["/m.js"]⟩ =
      some (.ok "/m.js", ⟨[("/m.js", ⟨.Loaded, [("x", Value.num 1)], none⟩)], ["/m.js"]⟩)) ∧
    (["/m.js"] : List String).Nodup := by
  refine ⟨?_, ?_, ?_⟩
  · exact claim_singleton_caching.1 [("/m.js", [Stmt.defineExport "x" (Value.num 1)])] 1 1
      "./m" "" "./m" "" "/m.js" initState
      ⟨[("/m.js", ⟨.Loaded, [("x", Value.num 1)], none⟩)], ["/m.js"]⟩
      ⟨[("/m.js", ⟨.Loaded, [("x", Value.num 1)], none⟩)], ["/m.js"]⟩
      ⟨[("/m.js", ⟨.Loaded, [("x", Value.num 1)], none⟩)], ["/m.js"]⟩
      "/m.js" "/m.js" rfl rfl rfl rfl
  · exact claim_singleton_caching.2.1 [("/m.js", [Stmt.defineExport "x" (Value.num 1)])] 5
      "/m.js" ⟨[("/m.js", ⟨.Loaded, [("x", Value.num 1)], none⟩)], ["/m.js"]⟩
      ⟨.Loaded, [("x", Value.num 1)], none⟩ rfl rfl
  · exact claim_singleton_caching.2.2 [("/m.js", [Stmt.defineExport "x" (Value.num 1)])] 1
      [("./m", ""), ("./m", "")]
      ⟨[("/m.js", ⟨.Loaded, [("x", Value.num 1)], none⟩)], ["/m.js"]⟩ rfl

/-- C5: Failed-module atomicity — a record in state `Failed` answers every
later `require` of its path by re-raising the recorded original error with
the loader state unchanged (so nothing is re-executed), and across any
further sequence of requires the record stays `Failed` with the same
recorded error. -/
theorem claim_failed_atomicity :
    (∀ (fs : FS) (fuel : Nat) (p : String) (st : LoaderState) (r : ModuleRecord)
        (e : LoadError),
        assocFind st.graph p = some r → r.state = .Failed → r.err = some e →
        loadPath fs fuel p st = some (.error e, st)) ∧
    (∀ (fs : FS) (fuel : Nat) (reqs : List (String × String)) (st st' : LoaderState)
        (p : String) (r : ModuleRecord),
        runRequires fs fuel reqs st = some st' →
        assocFind st.graph p = some r → r.state = .Failed →
        ∃ r', assocFind st'.graph p = some r' ∧ r'.state = .Failed ∧ r'.err = r.err) := by
  constructor
  · intro fs fuel p st r e hg hs he
    rw [loadPath_cached fs fuel p st r hg]
    simp [cachedResult, hs, he]
  · intro fs fuel reqs st st' p r hrun hg hs
    obtain ⟨r', hf, hstate, herr⟩ := runRequires_pres fs fuel reqs st st' hrun p r hg
    exact ⟨r', hf, hstate.trans hs, herr⟩

/-- Witness for C5 at a concrete failed record: requiring it re-raises the
original error with the state untouched, and after a further run the record
is still `Failed` with the original error. -/
theorem claim_failed_atomicity_witness :
    (loadPath [] 3 "/f.js"
        ⟨[("/f.js", ⟨.Failed, [], some (.evalError "boom")⟩)], ["/f.js"]⟩ =
      some (.error (.evalError "boom"),
        ⟨[("/f.js", ⟨.Failed, [], some (.evalError "boom")⟩)], ["/f.js"]⟩)) ∧
    (∃ r', assocFind
        (⟨[("/f.js", ⟨.Failed, [], some (.evalError "boom")⟩)], ["/f.js"]⟩ :
          LoaderState).graph "/f.js" = some r' ∧
      r'.state = .Failed ∧ r'.err = some (.evalError "boom")) := by
  constructor
  · exact claim_failed_atomicity.1 [] 3 "/f.js"
      ⟨[("/f.js", ⟨.Failed, [], some (.evalError "boom")⟩)], ["/f.js"]⟩
      ⟨.Failed, [], some (.evalError "boom")⟩ (.evalError "boom") rfl rfl rfl
  · exact claim_failed_atomicity.2 [] 1 []
      ⟨[("/f.js", ⟨.Failed, [], some (.evalError "boom")⟩)], ["/f.js"]⟩
      ⟨[("/f.js", ⟨.Failed, [], some (.evalError "boom")⟩)], ["/f.js"]⟩
      "/f.js" ⟨.Failed, [], some (.evalError "boom")⟩ rfl rfl rfl

/-- C8: Extension probing — an extensionless resolved path probes `.js`
first and then `.ts`, the first existing file wins, neither existing yields
`ModuleNotFound`, and a failed resolution makes `require` fail with that
error. -/
theorem claim_extension_probing :
    (∀ (files : List String) (p : String), hasExtension p = false →
        files.contains (p ++ ".js") = true → probeExtensions files p = .ok (p ++ ".js")) ∧
    (∀ (files : List String) (p : String), hasExtension p = false →
        files.contains (p ++ ".js") = false → files.contains (p ++ ".ts") = true →
        probeExtensions files p = .ok (p ++ ".ts")) ∧
    (∀ (files : List String) (p : String), hasExtension p = false →
        files.contains (p ++ ".js") = false → files.contains (p ++ ".ts") = false →
        probeExtensions files p = .error (.moduleNotFound p)) ∧
    (∀ (fs : FS) (fuel : Nat) (s d : String) (st : LoaderState) (e : LoadError),
        resolveSpec (modulePaths fs) s d = .error e →
        requireMod fs fuel s d st = some (.error e, st)) := by
  refine ⟨?_, ?_, ?_, ?_⟩
  · intro files p h1 h2
    simp at h2
    simp [probeExtensions, h1, h2]
  · intro files p h1 h2 h3
    simp at h2 h3
    simp [probeExtensions, h1, h2, h3]
  · intro files p h1 h2 h3
    simp at h2 h3
    simp [probeExtensions, h1, h2, h3]
  · intro fs fuel s d st e h
    rw [requireMod, h]

/-- Witness for C8 at concrete paths: `.js` wins over `.ts`, `.ts` is taken
when `.js` is absent, a miss on both is `ModuleNotFound`, and `require`
surfaces the resolution error. -/
theorem claim_extension_probing_witness :
    (probeExtensions ["/a/m.js", "/a/m.ts"] "/a/m" = .ok "/a/m.js") ∧
    (probeExtensions ["/a/m.ts"] "/a/m" = .ok "/a/m.ts") ∧
    (probeExtensions [] "/a/m" = .error (.moduleNotFound "/a/m")) ∧
    (requireMod [] 1 "./m" "/a" initState =
      some (.error (.moduleNotFound "/a/m"), initState)) := by
  refine ⟨?_, ?_, ?_, ?_⟩
  · exact claim_extension_probing.1 ["/a/m.js", "/a/m.ts"] "/a/m" rfl rfl
  · exact claim_extension_probing.2.1 ["/a/m.ts"] "/a/m" rfl rfl rfl
  · exact claim_extension_probing.2.2.1 [] "/a/m" rfl rfl rfl
  · exact claim_extension_probing.2.2.2 [] 1 "./m" "/a" initState
      (.moduleNotFound "/a/m") rfl

/-! ### Evaluating export-definition runs -/

theorem modifyKV_congr {α : Type} (l : List (String × α)) (k : String) (f g : α → α)
    (h : ∀ v, f v = g v) : modifyKV l k f = modifyKV l k g := by
  induction l with
  | nil => rfl
  | cons hd tl ih =>
    obtain ⟨k', v⟩ := hd
    by_cases hk : k' = k
    · simp [modifyKV, hk, h]
    · simp [modifyKV, hk, ih]

theorem modifyKV_ident {α : Type} (l : List (String × α)) (k : String) (f : α → α)
    (h : ∀ v, f v = v) : modifyKV l k f = l := by
  induction l with
  | nil => rfl
  | cons hd tl ih =>
    obtain ⟨k', v⟩ := hd
    by_cases hk : k' = k
    · simp [modifyKV, hk, h]
    · simp [modifyKV, hk, ih]

theorem modifyKV_comp {α : Type} (l : List (String × α)) (k : String) (f g : α → α) :
    modifyKV (modifyKV l k f) k g = modifyKV l k (fun v => g (f v)) := by
  induction l with
  | nil => rfl
  | cons hd tl ih =>
    obtain ⟨k', v⟩ := hd
    by_cases hk : k' = k
    · simp [modifyKV, hk]
    · simp [modifyKV, hk, ih]

theorem addExports_eq (self : String) (l : List (String × Value)) (st : LoaderState) :
    addExports self l st =
      { st with graph :=
          modifyKV st.graph self (fun r => { r with exports := r.exports ++ l }) } := by
  induction l generalizing st with
  | nil =>
    simp only [addExports, List.foldl_nil, List.append_nil]
    rw [modifyKV_ident st.graph self _ (fun v => rfl)]
  | cons kv tl ih =>
    obtain ⟨n, v⟩ := kv
    have hfold : addExports self ((n, v) :: tl) st = addExports self tl (addExport self n v st) := by
      simp [addExports]
    rw [hfold, ih]
    simp only [addExport, modifyKV_comp]
    congr 1
    apply modifyKV_congr
    intro r
    simp

theorem evalStmts_defineStmts
    (req : String → LoaderState → Option (Except LoadError String × LoaderState))
    (self : String) (l : List (String × Value)) (rest : List Stmt) (st : LoaderState) :
    evalStmts req self (defineStmts l ++ rest) st =
      evalStmts req self rest (addExports self l st) := by
  induction l generalizing st with
  | nil => simp [defineStmts, addExports]
  | cons kv tl ih =>
    obtain ⟨n, v⟩ := kv
    have hcons : defineStmts ((n, v) :: tl) ++ rest =
        Stmt.defineExport n v :: (defineStmts tl ++ rest) := by
      simp [defineStmts]
    rw [hcons]
    simp only [evalStmts]
    rw [ih]
    congr 1

theorem evalStmts_defines_only
    (req : String → LoaderState → Option (Except LoadError String × LoaderState))
    (self : String) (l : List (String × Value)) (st : LoaderState) :
    evalStmts req self (defineStmts l) st = some (.ok (), addExports self l st) := by
  have h := evalStmts_defineStmts req self l [] st
  simpa [evalStmts] using h

/-! ### Cycle safety -/

theorem cycleHit (pA pB : String) (hne' : pB ≠ pA)
    (preA preB : List (String × Value)) (fs : FS) :
    loadPath fs 0 pA ⟨[(pB, ⟨.Loading, preB, none⟩), (pA, ⟨.Loading, preA, none⟩)], [pA, pB]⟩ =
      some (.ok pA,
        ⟨[(pB, ⟨.Loading, preB, none⟩), (pA, ⟨.Loading, preA, none⟩)], [pA, pB]⟩) := by
  rw [loadPath_cached fs 0 pA _ ⟨.Loading, preA, none⟩ (by simp [assocFind, hne'])]
  rfl

theorem cycleEvalB (pA pB snapName : String) (hne : pA ≠ pB)
    (preA preB postB : List (String × Value)) (fs : FS) :
    evalStmts (fun q s => loadPath fs 0 q s) pB
        (defineStmts preB ++ Stmt.reqSnapshot pA snapName :: defineStmts postB)
        (beginLoad pB ⟨[(pA, ⟨.Loading, preA, none⟩)], [pA]⟩) =
      some (.ok (),
        ⟨[(pB, ⟨.Loading, preB ++ (snapName, Value.obj preA) :: postB, none⟩),
          (pA, ⟨.Loading, preA, none⟩)], [pA, pB]⟩) := by
  have hne' : pB ≠ pA := Ne.symm hne
  rw [evalStmts_defineStmts]
  have h1 : addExports pB preB (beginLoad pB ⟨[(pA, ⟨.Loading, preA, none⟩)], [pA]⟩) =
      ⟨[(pB, ⟨.Loading, preB, none⟩), (pA, ⟨.Loading, preA, none⟩)], [pA, pB]⟩ := by
    rw [addExports_eq]
    simp [beginLoad, modifyKV, hne']
  rw [h1]
  simp only [evalStmts]
  rw [cycleHit pA pB hne' preA preB fs]
  dsimp only
  rw [show assocFind [(pB, (⟨.Loading, preB, none⟩ : ModuleRecord)),
        (pA, ⟨.Loading, preA, none⟩)] pA = some ⟨.Loading, preA, none⟩ from by
      simp [assocFind, hne']]
  rw [evalStmts_defines_only, addExports_eq]
  simp [addExport, modifyKV, hne']

theorem cycleLoadB (pA pB snapName : String) (hne : pA ≠ pB)
    (preA postA preB postB : List (String × Value)) :
    loadPath [(pA, defineStmts preA ++ Stmt.reqStmt pB :: defineStmts postA),
              (pB, defineStmts preB ++ Stmt.reqSnapshot pA snapName :: defineStmts postB)]
        1 pB ⟨[(pA, ⟨.Loading, preA, none⟩)], [pA]⟩ =
      some (.ok pB,
        ⟨[(pB, ⟨.Loaded, preB ++ (snapName, Value.obj preA) :: postB, none⟩),
          (pA, ⟨.Loading, preA, none⟩)], [pA, pB]⟩) := by
  have hne' : pB ≠ pA := Ne.symm hne
  rw [loadPath_step _ 0 pB _
      (defineStmts preB ++ Stmt.reqSnapshot pA snapName :: defineStmts postB)
      (by simp [assocFind, hne]) (by simp [assocFind, hne, hne'])]
  rw [cycleEvalB pA pB snapName hne preA preB postB _]
  simp [finishLoad, modifyKV, hne']

theorem cycleLoadA (pA pB snapName : String) (hne : pA ≠ pB)
    (preA postA preB postB : List (String × Value)) :
    loadPath [(pA, defineStmts preA ++ Stmt.reqStmt pB :: defineStmts postA),
              (pB, defineStmts preB ++ Stmt.reqSnapshot pA snapName :: defineStmts postB)]
        2 pA initState =
      some (.ok pA,
        ⟨[(pB, ⟨.Loaded, preB ++ (snapName, Value.obj preA) :: postB, none⟩),
          (pA, ⟨.Loaded, preA ++ postA, none⟩)], [pA, pB]⟩) := by
  have hne' : pB ≠ pA := Ne.symm hne
  rw [show (2 : Nat) = 1 + 1 from rfl]
  rw [loadPath_step _ 1 pA initState (defineStmts preA ++ Stmt.reqStmt pB :: defineStmts postA)
      (by simp [initState, assocFind]) (by simp [assocFind])]
  rw [evalStmts_defineStmts]
  have h1 : addExports pA preA (beginLoad pA initState) =
      ⟨[(pA, ⟨.Loading, preA, none⟩)], [pA]⟩ := by
    rw [addExports_eq]
    simp [beginLoad, initState, modifyKV]
  rw [h1]
  simp only [evalStmts]
  rw [cycleLoadB pA pB snapName hne preA postA preB postB]
  dsimp only
  rw [evalStmts_defines_only, addExports_eq]
  simp only [modifyKV, if_neg hne', if_pos rfl]
  simp [finishLoad, modifyKV, hne, hne']

/-- C2: Cycle safety — for the two-module cyclic graph in which module A
defines `preA`, then requires B, then defines `postA`, while module B
defines `preB`, then requires A and snapshots A's current exports, then
defines `postB`, loading A terminates within a fixed fuel bound of 2 nested
evaluations (no stack overflow, no deadlock, no error): A's require of the
`Loading` record of B — and B's require of the `Loading` record of A —
return the current, partially populated exports reference, so B's snapshot
of A contains exactly the exports `preA` that A had defined before requiring
B, and both modules finish `Loaded`. -/
theorem claim_cycle_safety (pA pB snapName : String) (hne : pA ≠ pB)
    (preA postA preB postB : List (String × Value)) :
    ∃ stF : LoaderState,
      loadPath [(pA, defineStmts preA ++ Stmt.reqStmt pB :: defineStmts postA),
                (pB, defineStmts preB ++ Stmt.reqSnapshot pA snapName :: defineStmts postB)]
          2 pA initState = some (.ok pA, stF) ∧
      assocFind stF.graph pB =
        some ⟨.Loaded, preB ++ (snapName, Value.obj preA) :: postB, none⟩ ∧
      assocFind stF.graph pA = some ⟨.Loaded, preA ++ postA, none⟩ := by
  have hne' : pB ≠ pA := Ne.symm hne
  refine ⟨_, cycleLoadA pA pB snapName hne preA postA preB postB, ?_, ?_⟩
  · simp [assocFind]
  · simp [assocFind, hne']

/-- Witness for C2 at a concrete two-module cycle (`/A.js` requires `/B.js`
which requires `/A.js` back): the load completes and B's snapshot of A holds
exactly A's pre-cycle export. -/
theorem claim_cycle_safety_witness :
    (("/A.js" : String) ≠ "/B.js") ∧
    (∃ stF : LoaderState,
      loadPath [("/A.js", defineStmts [("a1", Value.num 1)] ++
                  Stmt.reqStmt "/B.js" :: defineStmts [("a2", Value.num 2)]),
                ("/B.js", defineStmts [] ++
                  Stmt.reqSnapshot "/A.js" "partialA" :: defineStmts [])]
          2 "/A.js" initState = some (.ok "/A.js", stF) ∧
      assocFind stF.graph "/B.js" =
        some ⟨.Loaded, [] ++ ("partialA", Value.obj [("a1", Value.num 1)]) :: [], none⟩ ∧
      assocFind stF.graph "/A.js" =
        some ⟨.Loaded, [("a1", Value.num 1)] ++ [("a2", Value.num 2)], none⟩) :=
  ⟨by decide, claim_cycle_safety "/A.js" "/B.js" "partialA" (by decide)
    [("a1", Value.num 1)] [("a2", Value.num 2)] [] []⟩

/-! ### Line preservation of the stripper -/

theorem stripLineChars_length (st : LineSt) (cs : List Char) :
    (stripLineChars st cs).length = cs.length := by
  induction cs generalizing st with
  | nil => rfl
  | cons c cs ih => simp [stripLineChars, ih]

theorem stripLineChars_no_nl (st : LineSt) (cs : List Char) (h : nlChar ∉ cs) :
    nlChar ∉ stripLineChars st cs := by
  induction cs generalizing st with
  | nil => simp [stripLineChars]
  | cons c cs ih =>
    simp only [stripLineChars]
    intro hmem
    rcases List.mem_cons.mp hmem with h1 | h2
    · by_cases hs : stripsChar st c
      · rw [if_pos hs] at h1
        exact absurd h1 (by decide)
      · rw [if_neg hs] at h1
        exact h (h1 ▸ List.mem_cons_self c cs)
    · exact ih (lineStep st c) (fun hh => h (List.mem_cons_of_mem c hh)) h2

theorem splitOnChar_ne_nil (sep : Char) (cs : List Char) : splitOnChar sep cs ≠ [] := by
  cases cs with
  | nil => simp [splitOnChar]
  | cons c rest =>
    simp only [splitOnChar]
    split
    · simp
    · split <;> simp

theorem splitOnChar_no_sep (sep : Char) (cs : List Char) (h : sep ∉ cs) :
    splitOnChar sep cs = [cs] := by
  induction cs with
  | nil => rfl
  | cons c rest ih =>
    have hc : ¬ c = sep := fun e => h (e ▸ List.mem_cons_self c rest)
    have hr : sep ∉ rest := fun hh => h (List.mem_cons_of_mem c hh)
    simp only [splitOnChar, if_neg hc]
    rw [ih hr]

theorem splitOnChar_mem_no_sep (sep : Char) (cs : List Char) :
    ∀ l ∈ splitOnChar sep cs, sep ∉ l := by
  induction cs with
  | nil =>
    intro l hl
    simp [splitOnChar] at hl
    subst hl
    simp
  | cons c rest ih =>
    intro l hl
    simp only [splitOnChar] at hl
    by_cases hc : c = sep
    · rw [if_pos hc] at hl
      rcases List.mem_cons.mp hl with h1 | h2
      · subst h1; simp
      · exact ih l h2
    · rw [if_neg hc] at hl
      cases hsp : splitOnChar sep rest with
      | nil => exact absurd hsp (splitOnChar_ne_nil sep rest)
      | cons l0 ls =>
        rw [hsp] at hl
        rcases List.mem_cons.mp hl with h1 | h2
        · subst h1
          intro hmem
          rcases List.mem_cons.mp hmem with h3 | h4
          · exact hc h3.symm
          · exact ih l0 (hsp ▸ List.mem_cons_self l0 ls) h4
        · exact ih l (hsp ▸ List.mem_cons_of_mem l0 h2)

theorem splitOnChar_append_sep (sep : Char) (xs ys : List Char) (h : sep ∉ xs) :
    splitOnChar sep (xs ++ sep :: ys) = xs :: splitOnChar sep ys := by
  induction xs with
  | nil => simp [splitOnChar]
  | cons c rest ih =>
    have hc : ¬ c = sep := fun e => h (e ▸ List.mem_cons_self c rest)
    have hr : sep ∉ rest := fun hh => h (List.mem_cons_of_mem c hh)
    simp only [List.cons_append, splitOnChar, if_neg hc, List.append_eq]
    rw [ih hr]

theorem joinChar_roundtrip (sep : Char) (ls : List (List Char)) (h : ∀ l ∈ ls, sep ∉ l)
    (hne : ls ≠ []) : splitOnChar sep (joinChar sep ls) = ls := by
  induction ls with
  | nil => exact absurd rfl hne
  | cons l rest ih =>
    cases rest with
    | nil => simp [joinChar, splitOnChar_no_sep sep l (h l (List.mem_cons_self l []))]
    | cons l2 rest2 =>
      have hj : joinChar sep (l :: l2 :: rest2) = l ++ sep :: joinChar sep (l2 :: rest2) := rfl
      rw [hj, splitOnChar_append_sep sep _ _ (h l (List.mem_cons_self l _))]
      rw [ih (fun x hx => h x (List.mem_cons_of_mem l hx)) (by simp)]

theorem splitLines_joinLines (ls : List String) (h : ∀ l ∈ ls, nlChar ∉ l.toList)
    (hne : ls ≠ []) : splitLines (joinLines ls) = ls := by
  unfold splitLines joinLines
  rw [show (⟨joinChar nlChar (ls.map String.toList)⟩ : String).toList =
      joinChar nlChar (ls.map String.toList) from rfl]
  rw [joinChar_roundtrip nlChar (ls.map String.toList) ?hmem ?hne2]
  case hmem =>
    intro l hl
    rcases List.mem_map.mp hl with ⟨x, hx, hxx⟩
    rw [← hxx]
    exact h x hx
  case hne2 => simpa using hne
  rw [List.map_map]
  have hid : ((fun l => (⟨l⟩ : String)) ∘ String.toList) = id := by
    funext x
    rfl
  rw [hid, List.map_id]

theorem stripAnnotationsLine_length (l : String) :
    (stripAnnotationsLine l).length = l.length := by
  show (stripLineChars .norm l.toList).length = l.length
  rw [stripLineChars_length]
  rfl

theorem stripLines_forall2 (d : Nat) (ls : List String) :
    List.Forall₂ (fun e r => e.length = r.length ∨ e = "") (stripLines d ls) ls := by
  induction ls generalizing d with
  | nil => cases d <;> exact List.Forall₂.nil
  | cons l rest ih =>
    cases d with
    | zero =>
      by_cases hs : startsRemoval l
      · simp only [stripLines, if_pos hs]
        exact List.Forall₂.cons (Or.inr rfl) (ih _)
      · simp only [stripLines, if_neg hs]
        exact List.Forall₂.cons (Or.inl (stripAnnotationsLine_length l)) (ih _)
    | succ d =>
      simp only [stripLines]
      exact List.Forall₂.cons (Or.inr rfl) (ih _)

theorem stripLines_length (d : Nat) (ls : List String) :
    (stripLines d ls).length = ls.length :=
  (stripLines_forall2 d ls).length_eq

theorem stripLines_no_nl (d : Nat) (ls : List String) (h : ∀ l ∈ ls, nlChar ∉ l.toList) :
    ∀ l ∈ stripLines d ls, nlChar ∉ l.toList := by
  induction ls generalizing d with
  | nil =>
    intro l hl
    cases d <;> simp [stripLines] at hl
  | cons l0 rest ih =>
    intro l hl
    have hrest : ∀ x ∈ rest, nlChar ∉ x.toList :=
      fun x hx => h x (List.mem_cons_of_mem l0 hx)
    cases d with
    | zero =>
      by_cases hs : startsRemoval l0
      · simp only [stripLines, if_pos hs] at hl
        rcases List.mem_cons.mp hl with h1 | h2
        · subst h1; simp
        · exact ih _ hrest l h2
      · simp only [stripLines, if_neg hs] at hl
        rcases List.mem_cons.mp hl with h1 | h2
        · subst h1
          exact stripLineChars_no_nl _ _ (h l0 (List.mem_cons_self l0 rest))
        · exact ih _ hrest l h2
    | succ d =>
      simp only [stripLines] at hl
      rcases List.mem_cons.mp hl with h1 | h2
      · subst h1; simp
      · exact ih _ hrest l h2

theorem splitLines_no_nl (s : String) : ∀ l ∈ splitLines s, nlChar ∉ l.toList := by
  intro l hl
  unfold splitLines at hl
  rcases List.mem_map.mp hl with ⟨x, hx, hxx⟩
  rw [← hxx]
  exact splitOnChar_mem_no_sep nlChar s.toList x hx

theorem splitLines_ne_nil (s : String) : splitLines s ≠ [] := by
  unfold splitLines
  intro h
  exact splitOnChar_ne_nil nlChar s.toList (by simpa using h)

/-- C3: Line preservation — for every input text, the stripper's output has
exactly the same number of newline-separated lines as the input, and each
emitted line is either exactly as long as its source line (intra-line
removals are equal-length space filler) or a blank line (whole-line
removal); lines are never removed. -/
theorem claim_line_preservation (s : String) :
    (splitLines (stripTypes s)).length = (splitLines s).length ∧
    List.Forall₂ (fun e r => e.length = r.length ∨ e = "")
      (splitLines (stripTypes s)) (splitLines s) := by
  have hkey : splitLines (stripTypes s) = stripLines 0 (splitLines s) := by
    unfold stripTypes
    apply splitLines_joinLines
    · exact stripLines_no_nl 0 (splitLines s) (splitLines_no_nl s)
    · intro hnil
      have hlen := stripLines_length 0 (splitLines s)
      rw [hnil] at hlen
      exact splitLines_ne_nil s (List.length_eq_zero.mp hlen.symm)
  rw [hkey]
  exact ⟨stripLines_length 0 (splitLines s), stripLines_forall2 0 (splitLines s)⟩

/-! ### Enum declarations are removed whole -/

theorem listStartsWith_append (xs ys : List Char) : listStartsWith xs (xs ++ ys) = true := by
  induction xs with
  | nil => rfl
  | cons c rest ih => simp [listStartsWith, ih]

theorem strToList_append (a b : String) : (a ++ b).toList = a.toList ++ b.toList :=
  String.data_append a b

theorem enumHeader_startsRemoval (n tail : String) :
    startsRemoval ("enum " ++ n ++ tail) = true := by
  unfold startsRemoval
  have hdata : ("enum " ++ n ++ tail).toList = "enum ".toList ++ (n.toList ++ tail.toList) := by
    rw [strToList_append, strToList_append, List.append_assoc]
  rw [hdata]
  have htrim : trimLeadCh ("enum ".toList ++ (n.toList ++ tail.toList)) =
      "enum ".toList ++ (n.toList ++ tail.toList) := by
    simp [trimLeadCh, List.dropWhile]
  rw [htrim, listStartsWith_append]
  simp

theorem enumHeader_depth (n : String) (hn1 : obraceChar ∉ n.toList)
    (hn2 : cbraceChar ∉ n.toList) :
    braceDepthAfter 0 ("enum " ++ n ++ " \x7b") = 1 := by
  unfold braceDepthAfter
  rw [strToList_append, strToList_append]
  simp only [List.count_append]
  rw [List.count_eq_zero.mpr hn1, List.count_eq_zero.mpr hn2]
  rfl

/-- C9: Enum removal — an `enum N \x7b … \x7d` declaration is removed as a
whole by the stripper: its header line, every entry line and the closing
line all become blank lines in the emitted text, so neither the enum's name
nor any of its values survives into the emitted text (the documented
intentional semantic loss: no runtime enum object can exist). -/
theorem claim_enum_removal (n : String) (entries rest : List String)
    (hn1 : obraceChar ∉ n.toList) (hn2 : cbraceChar ∉ n.toList)
    (hent : ∀ l ∈ entries, obraceChar ∉ l.toList ∧ cbraceChar ∉ l.toList) :
    stripLines 0 (("enum " ++ n ++ " \x7b") :: (entries ++ "\x7d" :: rest)) =
      List.replicate (entries.length + 2) "" ++ stripLines 0 rest := by
  have hstart := enumHeader_startsRemoval n " \x7b"
  have hdepth := enumHeader_depth n hn1 hn2
  simp only [stripLines, if_pos hstart, hdepth]
  have hmid : ∀ (es : List String),
      (∀ l ∈ es, obraceChar ∉ l.toList ∧ cbraceChar ∉ l.toList) →
      stripLines 1 (es ++ "\x7d" :: rest) =
        List.replicate (es.length + 1) "" ++ stripLines 0 rest := by
    intro es
    induction es with
    | nil =>
      intro _
      simp only [List.nil_append, stripLines]
      rw [show braceDepthAfter 1 "\x7d" = 0 from rfl]
      simp
    | cons e es ih =>
      intro hes
      have he := hes e (List.mem_cons_self e es)
      have hdep : braceDepthAfter 1 e = 1 := by
        unfold braceDepthAfter
        rw [List.count_eq_zero.mpr he.1, List.count_eq_zero.mpr he.2]
      simp only [List.cons_append, stripLines, hdep, List.append_eq]
      rw [ih (fun x hx => hes x (List.mem_cons_of_mem e hx))]
      simp [List.replicate_succ]
  rw [hmid entries hent]
  simp [List.replicate_succ]

/-- Witness for C9: a concrete three-line `enum Color` declaration followed
by ordinary code is emitted as four blank lines plus the stripped remainder. -/
theorem claim_enum_removal_witness :
    stripLines 0 (("enum " ++ "Color" ++ " \x7b") ::
        (["  Red,", "  Green,"] ++ "\x7d" :: ["const a = 1"])) =
      List.replicate (["  Red,", "  Green,"].length + 2) "" ++
        stripLines 0 ["const a = 1"] :=
  claim_enum_removal "Color" ["  Red,", "  Green,"] ["const a = 1"]
    (by decide) (by decide) (by decide)

/-! ### Rewrite fidelity -/

/-- C4: Rewrite fidelity — the three literal import shapes of §4.3 are
rewritten to exactly the stated CommonJS forms: a named import becomes a
`const` destructuring of `require`, a default import a plain `const` of
`require`, and a bare side-effect import a bare `require` call. -/
theorem claim_rewrite_fidelity :
    rewriteImportLine "import \x7b func \x7d from \x27./utils\x27" =
      "const \x7b func \x7d = require(\x27./utils\x27)" ∧
    rewriteImportLine "import defaultExport from \x27./lib\x27" =
      "const defaultExport = require(\x27./lib\x27)" ∧
    rewriteImportLine "import \x27./module\x27" = "require(\x27./module\x27)" :=
  ⟨rfl, rfl, rfl⟩

/-! ### Env expansion -/

/-- C6: Env expansion — `API_URL=$\x7bBASE_URL\x7d/api` after
`BASE_URL=http://localhost:3000` resolves against the already-parsed keys to
`http://localhost:3000/api`; a single-quoted value keeps `$\x7bHOME\x7d`
as literal text with no expansion and no escapes; an unquoted value resolves
`$\x7bHOME\x7d` against the OS environment; and expansion output is never
rescanned — a dollar-brace reference arriving through an expansion result
stays literal even though the OS environment could resolve it (single pass,
no recursive re-expansion). -/
theorem claim_env_expansion :
    assocFind (parseEnvLines [("HOME", "/root"), ("C", "OSVALUE")] []
        ["BASE_URL=http://localhost:3000", "API_URL=${BASE_URL}/api"]) "API_URL" =
      some "http://localhost:3000/api" ∧
    assocFind (parseEnvLines [("HOME", "/root"), ("C", "OSVALUE")] []
        ["LITERAL=\x27${HOME} stays as literal text\x27"]) "LITERAL" =
      some "${HOME} stays as literal text" ∧
    assocFind (parseEnvLines [("HOME", "/root"), ("C", "OSVALUE")] []
        ["CONF=${HOME}/app"]) "CONF" = some "/root/app" ∧
    assocFind (parseEnvLines [("HOME", "/root"), ("C", "OSVALUE")] []
        ["DOLLAR=\x27${C}\x27", "D=${DOLLAR}x"]) "D" = some "${C}x" :=
  ⟨rfl, rfl, rfl, rfl⟩

/-! ### Env precedence -/

theorem parseEnvLine_key (os store : List (String × String)) (l k v : String)
    (h : parseEnvLine os store l = some (k, v)) : lineKey l = some k := by
  unfold parseEnvLine at h
  unfold lineKey
  cases hcs : trimLeadCh l.toList with
  | nil => rw [hcs] at h; cases h
  | cons c rest =>
    rw [hcs] at h
    dsimp only at h
    dsimp only
    by_cases hc : c = '#'
    · rw [if_pos hc] at h; cases h
    · rw [if_neg hc] at h
      rw [if_neg hc]
      cases hsp : spanKey (c :: rest) with
      | mk kk vv =>
        rw [hsp] at h
        cases vv with
        | nil => cases h
        | cons c2 rest2 =>
          dsimp only at h
          dsimp only
          by_cases he : c2 = '='
          · rw [if_pos he] at h
            rw [if_pos he]
            cases h
            rfl
          · rw [if_neg he] at h; cases h

theorem lookup_parseEnvLines_other (os : List (String × String)) (ls : List String) :
    ∀ (store : List (String × String)) (k : String),
      (∀ l ∈ ls, lineKey l ≠ some k) →
      assocFind (parseEnvLines os store ls) k = assocFind store k := by
  induction ls with
  | nil => intro store k _; rfl
  | cons l ls ih =>
    intro store k hk
    simp only [parseEnvLines]
    cases hp : parseEnvLine os store l with
    | none => exact ih store k (fun x hx => hk x (List.mem_cons_of_mem l hx))
    | some kv =>
      obtain ⟨k', v⟩ := kv
      have hk' : k' ≠ k := by
        intro e
        exact hk l (List.mem_cons_self l ls) (e ▸ parseEnvLine_key os store l k' v hp)
      rw [ih (insertKV store k' v) k (fun x hx => hk x (List.mem_cons_of_mem l hx))]
      exact assocFind_insertKV_ne store k' k v hk'

theorem parseEnvLines_append (os store : List (String × String)) (L1 L2 : List String) :
    parseEnvLines os store (L1 ++ L2) = parseEnvLines os (parseEnvLines os store L1) L2 := by
  induction L1 generalizing store with
  | nil => rfl
  | cons l ls ih =>
    simp only [List.cons_append, parseEnvLines]
    cases hp : parseEnvLine os store l with
    | none => exact ih store
    | some kv =>
      obtain ⟨k, v⟩ := kv
      exact ih (insertKV store k v)

/-- C7: Env precedence — Bootstrap parses `.env` then `.env.local` into one
store where later keys overwrite earlier ones: whatever `.env` bound a key
to, a `.env.local` line binding that key (and not redefined later in the
file) determines the final value; and missing files are not an error — they
simply contribute nothing. -/
theorem claim_env_precedence :
    (∀ (os : List (String × String)) (envLines pre post : List String) (l k v : String),
        parseEnvLine os (parseEnvLines os (parseEnvLines os [] envLines) pre) l =
          some (k, v) →
        (∀ l2 ∈ post, lineKey l2 ≠ some k) →
        assocFind (buildEnvStore os (some envLines) (some (pre ++ l :: post))) k = some v) ∧
    (∀ os : List (String × String), buildEnvStore os none none = []) ∧
    (∀ (os : List (String × String)) (localLines : List String),
        buildEnvStore os none (some localLines) = parseEnvLines os [] localLines) := by
  refine ⟨?_, ?_, ?_⟩
  · intro os envLines pre post l k v hl hpost
    unfold buildEnvStore
    simp only [Option.getD_some]
    rw [parseEnvLines_append]
    simp only [parseEnvLines, hl]
    rw [lookup_parseEnvLines_other os post (insertKV _ k v) k hpost]
    exact assocFind_insertKV_self _ k v
  · intro os; rfl
  · intro os localLines; rfl

/-- Witness for C7: `PORT` is bound in the OS env, in `.env` and in
`.env.local`; the store ends with the `.env.local` value, and the
missing-file cases degrade gracefully. -/
theorem claim_env_precedence_witness :
    (assocFind (buildEnvStore [("PORT", "9999")] (some ["PORT=1111", "HOST=h"])
        (some ["PORT=2222"])) "PORT" = some "2222") ∧
    (buildEnvStore [("PORT", "9999")] none none = []) ∧
    (buildEnvStore [("PORT", "9999")] none (some ["PORT=2222"]) =
      parseEnvLines [("PORT", "9999")] [] ["PORT=2222"]) :=
  ⟨claim_env_precedence.1 [("PORT", "9999")] ["PORT=1111", "HOST=h"] [] []
      "PORT=2222" "PORT" "2222" rfl (by simp),
    claim_env_precedence.2.1 [("PORT", "9999")],
    claim_env_precedence.2.2 [("PORT", "9999")] ["PORT=2222"]⟩

/-! ### UUID version -/

/-- Counterexample to C10 as stated: the nil UUID is a valid UUID string —
`Rode.uuid.validate` accepts it (the demo script treats it as valid) — yet
`Rode.uuid.version` cannot return its version number, because its version
digit is 0 and the documented return range is 1–5; it returns null instead.
So "returns the UUID's version number when the input is a valid UUID
string" fails at this input. -/
theorem claim_uuid_version_counterexample :
    uuidValidate "00000000-0000-0000-0000-000000000000" = true ∧
    uuidVersion "00000000-0000-0000-0000-000000000000" = none := by
  constructor
  · decide
  · decide

/-- C10 (amended): `Rode.uuid.version` is total (never throws) and never
returns a junk version: on every input it yields either `none` or a version
number between 1 and 5; on every input rejected by `Rode.uuid.validate` it
yields `none` — never a number for a string that fails validation; and
affirmatively, on every input accepted by `Rode.uuid.validate` whose
version digit is between 1 and 5, it returns exactly that version number.
(The nil UUID shows the affirmative half cannot extend to all validated
strings: its version digit 0 lies outside the documented 1–5 range.) -/
theorem claim_uuid_version (s : String) :
    (uuidVersion s = none ∨ ∃ n, uuidVersion s = some n ∧ 1 ≤ n ∧ n ≤ 5) ∧
    (uuidValidate s = false → uuidVersion s = none) ∧
    (∀ c, uuidValidate s = true → (s.toList.drop 14).head? = some c →
        1 ≤ hexVal c → hexVal c ≤ 5 → uuidVersion s = some (hexVal c)) := by
  refine ⟨?_, ?_, ?_⟩
  · unfold uuidVersion
    by_cases hv : uuidValidate s
    · rw [if_pos hv]
      cases hc : (s.toList.drop 14).head? with
      | none => exact Or.inl rfl
      | some c =>
        dsimp only
        by_cases hr : 1 ≤ hexVal c ∧ hexVal c ≤ 5
        · exact Or.inr ⟨hexVal c, by rw [if_pos hr], hr.1, hr.2⟩
        · rw [if_neg hr]
          exact Or.inl rfl
    · rw [if_neg hv]
      exact Or.inl rfl
  · intro hv
    simp [uuidVersion, hv]
  · intro c hv hc h1 h2
    simp at hc
    simp [uuidVersion, hv, hc, h1, h2]

/-- Witness for C10: the demo's v4 UUID gets its version number 4 returned
(the affirmative conjunct applied at a concrete validated input), and the
demo's invalid input gets `none`. -/
theorem claim_uuid_version_witness :
    (uuidVersion "f47ac10b-58cc-4372-a567-0e02b2c3d479" = some 4) ∧
    (uuidValidate "not-a-uuid" = false ∧ uuidVersion "not-a-uuid" = none) := by
  constructor
  · exact (claim_uuid_version "f47ac10b-58cc-4372-a567-0e02b2c3d479").2.2 '4'
      (by decide) (by decide) (by decide) (by decide)
  · exact ⟨by decide, (claim_uuid_version "not-a-uuid").2.1 (by decide)⟩

end Rode
